import Mathlib

/-!
Verification of `aeer/model/latent_auto_encoder.py`.

A shallow embedding of the latent-factor denoising auto-encoder in
`src/aeer/model/latent_auto_encoder.py` (class `LatentFactorAutoEncoder` and the
driver `main`), together with proofs and refutations of the frozen claims about
its specification.

Conventions of the embedding:
* tensors are lists of rationals (`Vec`) and lists of rows (`Mat`); all machine
  floats are modelled as exact rationals;
* each TensorFlow graph node used by the source becomes a pure Lean function
  (`tf.nn.xw_plus_b` → `xwPlusB`, `tf.nn.embedding_lookup` → `embeddingLookup`,
  `tf.reduce_sum(·, axis=0)` → `reduceSum0`, `tf.gather_nd` → `gatherNd`,
  `tf.losses.mean_squared_error` → `mse`, `tf.nn.in_top_k` → `inTopK`,
  `tf.metrics.recall_at_k` → explicit state passing over `MetricState`);
* activation functions stay abstract (`ℚ → ℚ`) because the activation registry
  (`ACTIVATION_FN`) is an external collaborator; concrete instances use `relu`.
-/

namespace ACDA

abbrev Vec := List ℚ
abbrev Mat := List Vec

/-- Dot product of two vectors (inner product used by matrix multiplication). -/
def dot (a b : Vec) : ℚ := (List.zipWith (· * ·) a b).sum

/-- Column `j` of a matrix stored as a list of rows. -/
def col (W : Mat) (j : ℕ) : Vec := W.map (fun r => r.getD j 0)

/-- The op `tf.nn.xw_plus_b(x, W, b)`: the affine map `x·W + b` applied to every row of
`x`; the result width is the width of `b` (= the second dimension of `W` in any
well-shaped call).  Also the linear part of `tf.contrib.layers.fully_connected`. -/
def xwPlusB (x W : Mat) (b : Vec) : Mat :=
  x.map (fun r => (List.range b.length).map (fun j => dot r (col W j) + b.getD j 0))

/-- Pointwise sum of two vectors (`+` on equal-shaped tensors). -/
def addVec (a b : Vec) : Vec := List.zipWith (· + ·) a b

/-- The statement `preactivation += factor`: broadcast-add the vector `v` to every row of `m`. -/
def broadcastAdd (m : Mat) (v : Vec) : Mat := m.map (fun r => addVec r v)

/-- The op `tf.nn.embedding_lookup(table, ids)`: one table row per id. -/
def embeddingLookup (table : Mat) (ids : List ℕ) : Mat :=
  ids.map (fun i => table.getD i [])

/-- The op `tf.reduce_sum(m, axis=0)`: sum of the rows.  (The source then applies
`tf.squeeze`, which is the identity on the resulting rank-1 tensor.) -/
def reduceSum0 : Mat → Vec
  | [] => []
  | r :: rs => rs.foldl addVec r

/-- Apply an elementwise function to every entry of a matrix (activation maps). -/
def mapMat (f : ℚ → ℚ) (m : Mat) : Mat := m.map (fun r => r.map f)

/-- The op `tf.gather_nd(m, idx)` for a list of rank-2 indices `(row, column)`. -/
def gatherNd (m : Mat) (idx : List (ℕ × ℕ)) : Vec :=
  idx.map (fun p => (m.getD p.1 []).getD p.2 0)

/-- The op `tf.losses.mean_squared_error(labels, predictions)`: mean of the squared
differences. -/
def mse (labels preds : Vec) : ℚ :=
  (List.zipWith (fun a b => (a - b) ^ 2) labels preds).sum / labels.length

/-- The parameter set built by `LatentFactorAutoEncoder.__init__`: the encoder
weights `W`/`b`, the optional latent-factor embedding tables (present exactly
when the corresponding cardinality is given, per the `if n_venues is not None`
/ `if n_groups is not None` branches), the output layer of `fully_connected`
(`outW`, `outB`), and the two activation functions fetched from the registry. -/
structure Model where
  W : Mat
  b : Vec
  venueBias : Option Mat
  groupBias : Option Mat
  outW : Mat
  outB : Vec
  hiddenAct : ℚ → ℚ
  outputAct : ℚ → ℚ

/-- The hidden-layer preactivation: `tf.nn.xw_plus_b(x, W, b)`, then (when the
venue factor is enabled) `+= squeeze(reduce_sum(embedding_lookup(VenueBias,
venue_id), axis=0))`, then the same for the group factor. -/
def preActivation (M : Model) (x : Mat) (gid vid : List ℕ) : Mat :=
  let pre := xwPlusB x M.W M.b
  let pre :=
    match M.venueBias with
    | some vb => broadcastAdd pre (reduceSum0 (embeddingLookup vb vid))
    | none => pre
  match M.groupBias with
  | some gb => broadcastAdd pre (reduceSum0 (embeddingLookup gb gid))
  | none => pre

/-- The node `hidden = ACTIVATION_FN[hidden_activation](preactivation)`. -/
def hiddenOf (M : Model) (x : Mat) (gid vid : List ℕ) : Mat :=
  mapMat M.hiddenAct (preActivation M x gid vid)

/-- The node `self.outputs = fully_connected(hidden, n_outputs,
activation_fn=ACTIVATION_FN[output_activation])`. -/
def outputsOf (M : Model) (x : Mat) (gid vid : List ℕ) : Mat :=
  mapMat M.outputAct (xwPlusB (hiddenOf M x gid vid) M.outW M.outB)

/-- The loss node as a function of the `outputs` tensor it is wired to:
`self.loss = tf.losses.mean_squared_error(tf.gather_nd(outputs,
gather_indices), y)`. -/
def lossNode (outputs : Mat) (gidx : List (ℕ × ℕ)) (y : Vec) : ℚ :=
  mse (gatherNd outputs gidx) y

/-- Overwrite entry `(i, j)` of a matrix (out-of-range indices change nothing). -/
def updateMat (m : Mat) (i j : ℕ) (v : ℚ) : Mat :=
  m.set i ((m.getD i []).set j v)

lemma getD_set_of_ne {α : Type} (l : List α) (i j : ℕ) (a d : α) (h : i ≠ j) :
    (l.set i a).getD j d = l.getD j d := by
  simp [List.getD_eq_getElem?_getD, List.getElem?_set_ne h]

lemma getD_set_self {α : Type} (l : List α) (i : ℕ) (a d : α) (h : i < l.length) :
    (l.set i a).getD i d = a := by
  simp [List.getD_eq_getElem?_getD, List.getElem?_set_self, h]

/-- Gathering is blind to entries at positions outside the gather-index list. -/
lemma gatherNd_updateMat (m : Mat) (gidx : List (ℕ × ℕ)) (i j : ℕ) (v : ℚ)
    (h : (i, j) ∉ gidx) :
    gatherNd (updateMat m i j v) gidx = gatherNd m gidx := by
  apply List.map_congr_left
  intro p hp
  have hne : (i, j) ≠ p := fun he => h (he ▸ hp)
  by_cases hri : p.1 = i
  · by_cases hlt : i < m.length
    · have hcj : j ≠ p.2 := by
        intro hc
        exact hne (by cases p; simp_all)
      rw [updateMat, hri, getD_set_self _ _ _ _ hlt,
        getD_set_of_ne _ _ _ _ _ hcj]
    · rw [updateMat, List.set_eq_of_length_le (le_of_not_lt hlt)]
  · rw [updateMat, getD_set_of_ne _ _ _ _ _ (fun he => hri he.symm)]

/-- C1: the training loss equals the mean squared error between the entries of
`outputs` gathered at `gather_indices` and the target vector `y`, and mutating
any entry of `outputs` at a position not named by a gather index leaves the
loss value unchanged. -/
theorem loss_depends_only_on_gathered (outputs : Mat) (gidx : List (ℕ × ℕ))
    (y : Vec) (i j : ℕ) (v : ℚ) (h : (i, j) ∉ gidx) :
    lossNode outputs gidx y = mse (gatherNd outputs gidx) y ∧
    lossNode (updateMat outputs i j v) gidx y = lossNode outputs gidx y := by
  refine ⟨rfl, ?_⟩
  unfold lossNode
  rw [gatherNd_updateMat outputs gidx i j v h]

/-- Witness for C1 at a concrete batch: entry `(1,1)` is not gathered, so
overwriting it with `5` keeps the loss value. -/
theorem loss_depends_only_on_gathered_witness :
    ((1, 1) ∉ [((0 : ℕ), (0 : ℕ))]) ∧
    (lossNode [[1, 2], [3, 4]] [(0, 0)] [1] =
        mse (gatherNd [[1, 2], [3, 4]] [(0, 0)]) [1] ∧
      lossNode (updateMat [[1, 2], [3, 4]] 1 1 5) [(0, 0)] [1] =
        lossNode [[1, 2], [3, 4]] [(0, 0)] [1]) :=
  ⟨by decide,
    loss_depends_only_on_gathered [[1, 2], [3, 4]] [(0, 0)] [1] 1 1 5 (by decide)⟩

lemma getD_map_lt {α β : Type} (f : α → β) (l : List α) (i : ℕ) (d : α)
    (d' : β) (h : i < l.length) : (l.map f).getD i d' = f (l.getD i d) := by
  simp [List.getD_eq_getElem?_getD, List.getElem?_map, List.getElem?_eq_getElem h]

lemma length_xwPlusB (x W : Mat) (b : Vec) : (xwPlusB x W b).length = x.length := by
  simp [xwPlusB]

lemma length_broadcastAdd (m : Mat) (v : Vec) :
    (broadcastAdd m v).length = m.length := by
  simp [broadcastAdd]

lemma length_embeddingLookup (t : Mat) (ids : List ℕ) :
    (embeddingLookup t ids).length = ids.length := by
  simp [embeddingLookup]

lemma length_mapMat (f : ℚ → ℚ) (m : Mat) : (mapMat f m).length = m.length := by
  simp [mapMat]

lemma row_length_xwPlusB (x W : Mat) (b : Vec) :
    ∀ row ∈ xwPlusB x W b, row.length = b.length := by
  intro row hrow
  simp only [xwPlusB, List.mem_map] at hrow
  obtain ⟨r, -, rfl⟩ := hrow
  simp

lemma row_length_outputsOf (M : Model) (x : Mat) (gid vid : List ℕ) :
    ∀ row ∈ outputsOf M x gid vid, row.length = M.outB.length := by
  intro row hrow
  simp only [outputsOf, mapMat, List.mem_map] at hrow
  obtain ⟨r, hr, rfl⟩ := hrow
  simp only [List.length_map]
  exact row_length_xwPlusB _ _ _ r hr

/-- C2: with both latent factors enabled, `Forward` looks up one embedding row
per id, sums the looked-up rows across the batch dimension into a single
vector, adds that same vector to every row of `pre = x·W + b` (venue first,
then group, per the source order), applies the hidden activation, the output
projection and the output activation, and produces outputs of shape
`batch × n_outputs`. -/
theorem forward_enabled_factors (M : Model) (vt gt : Mat) (x : Mat)
    (gid vid : List ℕ) (nOut : ℕ)
    (hv : M.venueBias = some vt) (hg : M.groupBias = some gt)
    (hOut : M.outB.length = nOut) :
    (embeddingLookup vt vid).length = vid.length ∧
    (embeddingLookup gt gid).length = gid.length ∧
    preActivation M x gid vid =
      broadcastAdd
        (broadcastAdd (xwPlusB x M.W M.b) (reduceSum0 (embeddingLookup vt vid)))
        (reduceSum0 (embeddingLookup gt gid)) ∧
    (∀ i, i < x.length →
      (broadcastAdd (xwPlusB x M.W M.b) (reduceSum0 (embeddingLookup vt vid))).getD i [] =
        addVec ((xwPlusB x M.W M.b).getD i []) (reduceSum0 (embeddingLookup vt vid))) ∧
    (∀ i, i < x.length →
      (preActivation M x gid vid).getD i [] =
        addVec
          ((broadcastAdd (xwPlusB x M.W M.b)
              (reduceSum0 (embeddingLookup vt vid))).getD i [])
          (reduceSum0 (embeddingLookup gt gid))) ∧
    outputsOf M x gid vid =
      mapMat M.outputAct
        (xwPlusB (mapMat M.hiddenAct (preActivation M x gid vid)) M.outW M.outB) ∧
    (outputsOf M x gid vid).length = x.length ∧
    (∀ row ∈ outputsOf M x gid vid, row.length = nOut) := by
  have hpre : preActivation M x gid vid =
      broadcastAdd
        (broadcastAdd (xwPlusB x M.W M.b) (reduceSum0 (embeddingLookup vt vid)))
        (reduceSum0 (embeddingLookup gt gid)) := by
    unfold preActivation
    rw [hv, hg]
  refine ⟨length_embeddingLookup _ _, length_embeddingLookup _ _, hpre, ?_, ?_, rfl, ?_, ?_⟩
  · intro i hi
    unfold broadcastAdd
    rw [getD_map_lt _ _ _ [] _ (by rw [length_xwPlusB]; exact hi)]
  · intro i hi
    rw [hpre]
    unfold broadcastAdd
    rw [getD_map_lt _ _ _ [] _
      (by rw [List.length_map, length_xwPlusB]; exact hi)]
  · simp only [outputsOf, length_mapMat, length_xwPlusB, hiddenOf]
    rw [hpre]
    simp [length_broadcastAdd, length_xwPlusB]
  · intro row hrow
    rw [← hOut]
    exact row_length_outputsOf M x gid vid row hrow

/-- Concrete model with both latent factors enabled, for the C2 witness. -/
def M2 : Model :=
  { W := [[1]], b := [0], venueBias := some [[2]], groupBias := some [[3]],
    outW := [[1]], outB := [0], hiddenAct := fun q => q, outputAct := fun q => q }

/-- Witness for C2 at a concrete one-event model and a one-row batch. -/
theorem forward_enabled_factors_witness :
    M2.venueBias = some [[2]] ∧ M2.groupBias = some [[3]] ∧ M2.outB.length = 1 ∧
    ((embeddingLookup [[2]] [0]).length = [(0 : ℕ)].length ∧
      (embeddingLookup [[3]] [0]).length = [(0 : ℕ)].length ∧
      preActivation M2 [[1]] [0] [0] =
        broadcastAdd
          (broadcastAdd (xwPlusB [[1]] M2.W M2.b)
            (reduceSum0 (embeddingLookup [[2]] [0])))
          (reduceSum0 (embeddingLookup [[3]] [0])) ∧
      (∀ i, i < ([[(1 : ℚ)]] : Mat).length →
        (broadcastAdd (xwPlusB [[1]] M2.W M2.b)
            (reduceSum0 (embeddingLookup [[2]] [0]))).getD i [] =
          addVec ((xwPlusB [[1]] M2.W M2.b).getD i [])
            (reduceSum0 (embeddingLookup [[2]] [0]))) ∧
      (∀ i, i < ([[(1 : ℚ)]] : Mat).length →
        (preActivation M2 [[1]] [0] [0]).getD i [] =
          addVec
            ((broadcastAdd (xwPlusB [[1]] M2.W M2.b)
                (reduceSum0 (embeddingLookup [[2]] [0]))).getD i [])
            (reduceSum0 (embeddingLookup [[3]] [0]))) ∧
      outputsOf M2 [[1]] [0] [0] =
        mapMat M2.outputAct
          (xwPlusB (mapMat M2.hiddenAct (preActivation M2 [[1]] [0] [0]))
            M2.outW M2.outB) ∧
      (outputsOf M2 [[1]] [0] [0]).length = ([[(1 : ℚ)]] : Mat).length ∧
      (∀ row ∈ outputsOf M2 [[1]] [0] [0], row.length = 1)) :=
  ⟨rfl, rfl, rfl, forward_enabled_factors M2 [[2]] [[3]] [[1]] [0] [0] 1 rfl rfl rfl⟩

/-- The parameter construction of `__init__`: the latent-factor tables exist
exactly when the corresponding cardinality is passed (`n_groups is not None`,
`n_venues is not None`); a disabled factor allocates nothing. -/
def buildModel (W : Mat) (b : Vec) (outW : Mat) (outB : Vec)
    (hAct oAct : ℚ → ℚ) (nGroups nVenues : Option ℕ)
    (groupInit venueInit : ℕ → Mat) : Model :=
  { W := W, b := b,
    venueBias := nVenues.map venueInit,
    groupBias := nGroups.map groupInit,
    outW := outW, outB := outB, hiddenAct := hAct, outputAct := oAct }

/-- C7: with both latent factors disabled no embedding table is allocated
(`venueBias = groupBias = none`), the group/venue id inputs are ignored, and
`Forward` produces exactly the base linear+bias path. -/
theorem forward_disabled_factors (W outW : Mat) (b outB : Vec)
    (hAct oAct : ℚ → ℚ) (groupInit venueInit : ℕ → Mat) :
    (buildModel W b outW outB hAct oAct none none groupInit venueInit).venueBias
        = none ∧
    (buildModel W b outW outB hAct oAct none none groupInit venueInit).groupBias
        = none ∧
    ∀ x gid vid gid' vid',
      outputsOf (buildModel W b outW outB hAct oAct none none groupInit venueInit)
          x gid vid =
        mapMat oAct (xwPlusB (mapMat hAct (xwPlusB x W b)) outW outB) ∧
      outputsOf (buildModel W b outW outB hAct oAct none none groupInit venueInit)
          x gid vid =
        outputsOf (buildModel W b outW outB hAct oAct none none groupInit venueInit)
          x gid' vid' :=
  ⟨rfl, rfl, fun _ _ _ _ _ => ⟨rfl, rfl⟩⟩

/-! ## Ranking metrics

`self.precision_at_5/10 = tf.nn.in_top_k(outputs, actuals, k)` and
`self.recall_at_5/10 = tf.metrics.recall_at_k(actuals, outputs, k)`.
`in_top_k` marks row `i` when fewer than `k` classes score strictly above the
class `actuals[i]` (ties straddling the boundary count as in, and an
out-of-range target is out).  `recall_at_k` is a *streaming* metric: it owns
persistent `true_positive`/`false_negative` accumulators (created by
`tf.local_variables_initializer` and never reset by the driver), its update op
adds the batch counts obtained from the exact `top_k` set, and fetching the
`(value, update_op)` pair in `sess.run` — which is what `main` does — runs the
update; we model the fetched value as the ratio read from the updated
accumulators. -/

/-- The op `tf.nn.in_top_k(pred, t, k)` for one row. -/
def inTopK (pred : Vec) (t : ℕ) (k : ℕ) : Bool :=
  decide (t < pred.length) &&
    decide ((List.range pred.length).countP
      (fun j => decide (pred.getD t 0 < pred.getD j 0)) < k)

/-- The per-user precision accumulation of `main`:
`np.sum(in_top_k(outputs, actuals, k)) / k`. -/
def precisionAtK (outputs : Mat) (actuals : List ℕ) (k : ℕ) : ℚ :=
  ((List.zipWith (fun row t => inTopK row t k) outputs actuals).count true : ℚ) / k

/-- Insert an index into a list sorted by strictly descending key (equal keys
keep insertion order, matching `tf.nn.top_k`, which breaks ties by lower
index). -/
def insertDesc (key : ℕ → ℚ) (x : ℕ) : List ℕ → List ℕ
  | [] => [x]
  | y :: ys => if key x > key y then x :: y :: ys else y :: insertDesc key x ys

/-- All indices of a row sorted by descending score, ties by ascending index. -/
def sortIdxDesc (row : Vec) : List ℕ :=
  (List.range row.length).foldl
    (fun acc j => insertDesc (fun i => row.getD i 0) j acc) []

/-- The index set returned by `tf.nn.top_k(row, k)`. -/
def topKIndices (row : Vec) (k : ℕ) : List ℕ := (sortIdxDesc row).take k

/-- Batch true positives of `recall_at_k`: rows whose single actual label lands
in the exact top-`k` index set. -/
def batchTP (outputs : Mat) (actuals : List ℕ) (k : ℕ) : ℕ :=
  (List.zipWith (fun row t => decide (t ∈ topKIndices row k)) outputs actuals).count true

/-- Batch false negatives of `recall_at_k`: rows whose actual label is missed. -/
def batchFN (outputs : Mat) (actuals : List ℕ) (k : ℕ) : ℕ :=
  (List.zipWith (fun row t => decide (t ∉ topKIndices row k)) outputs actuals).count true

/-- The local accumulator variables owned by the two `recall_at_k` metrics. -/
structure MetricState where
  tp5 : ℕ
  fn5 : ℕ
  tp10 : ℕ
  fn10 : ℕ
deriving DecidableEq

/-- The value read from a recall accumulator pair: `tp / (tp + fn)`, `0` for
the empty accumulator. -/
def recallValue (tp fn : ℕ) : ℚ :=
  if tp + fn = 0 then 0 else (tp : ℚ) / ((tp : ℚ) + (fn : ℚ))

/-- One run of both recall update ops on a batch. -/
def metricUpdate (st : MetricState) (outputs : Mat) (actuals : List ℕ) :
    MetricState :=
  { tp5 := st.tp5 + batchTP outputs actuals 5,
    fn5 := st.fn5 + batchFN outputs actuals 5,
    tp10 := st.tp10 + batchTP outputs actuals 10,
    fn10 := st.fn10 + batchFN outputs actuals 10 }

/-- What one `sess.run([precision_at_5, precision_at_10, recall_at_5,
recall_at_10], feed)` fetches in the evaluation loop of `main`. -/
structure EvalFetch where
  prec5 : List Bool
  prec10 : List Bool
  rec5 : ℚ
  rec10 : ℚ
deriving DecidableEq

/-- One evaluation call: computes `outputs` from the current parameters and
inputs, reads the pure `in_top_k` fetches, and runs the streaming recall
updates on the metric state. -/
def evalCall (M : Model) (x : Mat) (actuals gid vid : List ℕ)
    (st : MetricState) : EvalFetch × MetricState :=
  let out := outputsOf M x gid vid
  let st' := metricUpdate st out actuals
  (⟨List.zipWith (fun row t => inTopK row t 5) out actuals,
    List.zipWith (fun row t => inTopK row t 10) out actuals,
    recallValue st'.tp5 st'.fn5, recallValue st'.tp10 st'.fn10⟩, st')

lemma zipWith_replicate_left {α β : Type} (f : Vec → α → β) (row : Vec) :
    ∀ (n : ℕ) (a : List α), a.length = n →
      List.zipWith f (List.replicate n row) a = a.map (f row) := by
  intro n a
  induction a generalizing n with
  | nil => intro h; subst h; simp
  | cons t ts ih =>
    intro h
    subst h
    simp only [List.length_cons, List.replicate_succ, List.zipWith_cons_cons,
      List.map_cons, List.cons.injEq, true_and]
    exact ih ts.length rfl

/-- C5 (counterexample): with a batch of six replicated rows whose single
actual index is the top-scored output, `np.sum(in_top_k)/5` is `6/5`, outside
`[0, 1]` — per-user precision@5 as accumulated by `main` can exceed 1 when the
user has more than `k` held-out events. -/
theorem precision_exceeds_one_counterexample :
    ¬ precisionAtK (List.replicate 6 [1, 0]) (List.replicate 6 0) 5 ≤ 1 := by
  have h : precisionAtK (List.replicate 6 [1, 0]) (List.replicate 6 0) 5 = 6 / 5 := by
    norm_num [precisionAtK, inTopK, List.range_succ, List.replicate,
      List.count_cons]
  rw [h]
  norm_num

/-- C5 (amended): per-user precision@k is non-negative and at most
`batch / k` (hence in `[0, 1]` whenever the user's batch has at most `k`
rows); the recall accumulator value is non-negative; and in the replicated
5-row scenario with exactly one actual index in the top 5 the accumulated
precision@5 is `1/5`, and `0` when none is. -/
theorem ranking_metrics_bounds (outputs : Mat) (actuals : List ℕ) (k : ℕ)
    (hk : 0 < k) :
    0 ≤ precisionAtK outputs actuals k ∧
    precisionAtK outputs actuals k ≤ (min outputs.length actuals.length : ℚ) / k ∧
    (min outputs.length actuals.length ≤ k → precisionAtK outputs actuals k ≤ 1) ∧
    0 ≤ recallValue (batchTP outputs actuals k) (batchFN outputs actuals k) ∧
    (∀ (row : Vec) (a : List ℕ), a.length = 5 →
      (a.countP (fun t => inTopK row t 5) = 1 →
        precisionAtK (List.replicate 5 row) a 5 = 1 / 5) ∧
      (a.countP (fun t => inTopK row t 5) = 0 →
        precisionAtK (List.replicate 5 row) a 5 = 0)) := by
  have hkq : (0 : ℚ) < k := by exact_mod_cast hk
  have hcount : ((List.zipWith (fun row t => inTopK row t k) outputs actuals).count true : ℚ)
      ≤ (min outputs.length actuals.length : ℚ) := by
    have := List.count_le_length true
      (List.zipWith (fun row t => inTopK row t k) outputs actuals)
    have hlen : (List.zipWith (fun row t => inTopK row t k) outputs actuals).length
        = min outputs.length actuals.length := List.length_zipWith _ _ _
    exact_mod_cast hlen ▸ this
  refine ⟨?_, ?_, ?_, ?_, ?_⟩
  · exact div_nonneg (by positivity) (le_of_lt hkq)
  · exact div_le_div_of_nonneg_right hcount hkq.le
  · intro hmin
    apply div_le_one_of_le₀
    · exact hcount.trans (by exact_mod_cast hmin)
    · exact le_of_lt hkq
  · unfold recallValue
    split
    · exact le_refl 0
    · positivity
  · intro row a ha
    have hzip : List.zipWith (fun r t => inTopK r t 5) (List.replicate 5 row) a
        = a.map (fun t => inTopK row t 5) :=
      zipWith_replicate_left _ row 5 a ha
    have hc : (a.map (fun t => inTopK row t 5)).count true
        = a.countP (fun t => inTopK row t 5) := by
      rw [List.count, List.countP_map]
      congr 1
      funext t
      simp
    constructor
    · intro h1
      unfold precisionAtK
      rw [hzip, hc, h1]
      norm_num
    · intro h0
      unfold precisionAtK
      rw [hzip, hc, h0]
      norm_num

/-- Witness for C5 at `k = 5`, a one-row batch. -/
theorem ranking_metrics_bounds_witness :
    0 < 5 ∧
    (0 ≤ precisionAtK [[1, 0]] [0] 5 ∧
      precisionAtK [[1, 0]] [0] 5 ≤ (min ([[(1 : ℚ), 0]] : Mat).length [(0 : ℕ)].length : ℚ) / 5 ∧
      (min ([[(1 : ℚ), 0]] : Mat).length [(0 : ℕ)].length ≤ 5 →
        precisionAtK [[1, 0]] [0] 5 ≤ 1) ∧
      0 ≤ recallValue (batchTP [[1, 0]] [0] 5) (batchFN [[1, 0]] [0] 5) ∧
      (∀ (row : Vec) (a : List ℕ), a.length = 5 →
        (a.countP (fun t => inTopK row t 5) = 1 →
          precisionAtK (List.replicate 5 row) a 5 = 1 / 5) ∧
        (a.countP (fun t => inTopK row t 5) = 0 →
          precisionAtK (List.replicate 5 row) a 5 = 0))) :=
  ⟨by decide, ranking_metrics_bounds [[1, 0]] [0] 5 (by decide)⟩

lemma recallValue_double (t f : ℕ) :
    recallValue (t + t) (f + f) = recallValue t f := by
  unfold recallValue
  rcases Nat.eq_zero_or_pos (t + f) with h | h
  · have ht : t = 0 := by omega
    have hf : f = 0 := by omega
    subst ht; subst hf
    simp
  · have h1 : t + f ≠ 0 := by omega
    have h2 : t + t + (f + f) ≠ 0 := by omega
    rw [if_neg h2, if_neg h1]
    push_cast
    rw [show ((t : ℚ) + t + ((f : ℚ) + f)) = 2 * ((t : ℚ) + f) by ring,
      show ((t : ℚ) + t) = 2 * (t : ℚ) by ring]
    exact mul_div_mul_left _ _ two_ne_zero

/-- C3 (amended): the `in_top_k` precision fetches are a pure function of the
current parameters and inputs — they do not depend on, or modify, the metric
state — and the streaming recall values returned by two successive identical
calls started from a *fresh* metric state are equal (the accumulated ratio is
invariant under repeating the same batch); the recall computation itself,
however, reads and updates the persistent accumulators (see the
counterexample). -/
theorem evaluation_precision_pure_recall_streaming (M : Model) (x : Mat)
    (actuals gid vid : List ℕ) (st st' : MetricState) :
    ((evalCall M x actuals gid vid st).1.prec5
        = (evalCall M x actuals gid vid st').1.prec5 ∧
      (evalCall M x actuals gid vid st).1.prec10
        = (evalCall M x actuals gid vid st').1.prec10) ∧
    ((evalCall M x actuals gid vid
          (evalCall M x actuals gid vid ⟨0, 0, 0, 0⟩).2).1.rec5
        = (evalCall M x actuals gid vid ⟨0, 0, 0, 0⟩).1.rec5 ∧
      (evalCall M x actuals gid vid
          (evalCall M x actuals gid vid ⟨0, 0, 0, 0⟩).2).1.rec10
        = (evalCall M x actuals gid vid ⟨0, 0, 0, 0⟩).1.rec10) := by
  refine ⟨⟨rfl, rfl⟩, ?_, ?_⟩
  · simp only [evalCall, metricUpdate, Nat.zero_add]
    exact recallValue_double _ _
  · simp only [evalCall, metricUpdate, Nat.zero_add]
    exact recallValue_double _ _

/-- Concrete model for the C3/C10 counterexamples: one input unit, identity
activations, output row `[0, 1, 2, 3, 4, 5]` for input `[1]`. -/
def M3 : Model :=
  { W := [[1]], b := [0], venueBias := none, groupBias := none,
    outW := [[0, 1, 2, 3, 4, 5]], outB := [0, 0, 0, 0, 0, 0],
    hiddenAct := fun q => q, outputAct := fun q => q }

/-- C3 (counterexample): computing the ranking metrics is *not* a pure,
side-effect-free function.  Evaluating a batch (actual index `0`, scored
outside the top 5) after an earlier batch has accumulated one true positive
mutates the streaming recall state, and the identical repeated call returns a
different recall@5 (`1/2` then `1/3`). -/
theorem evaluation_not_pure_counterexample :
    ((evalCall M3 [[1]] [0] [] []
        (evalCall M3 [[1]] [5] [] [] ⟨0, 0, 0, 0⟩).2).2 ≠
      (evalCall M3 [[1]] [5] [] [] ⟨0, 0, 0, 0⟩).2) ∧
    ((evalCall M3 [[1]] [0] [] []
        (evalCall M3 [[1]] [0] [] []
          (evalCall M3 [[1]] [5] [] [] ⟨0, 0, 0, 0⟩).2).2).1.rec5 ≠
      (evalCall M3 [[1]] [0] [] []
        (evalCall M3 [[1]] [5] [] [] ⟨0, 0, 0, 0⟩).2).1.rec5) := by
  have hout : outputsOf M3 [[1]] [] [] = [[0, 1, 2, 3, 4, 5]] := by
    norm_num [outputsOf, hiddenOf, preActivation, M3, xwPlusB, mapMat, dot,
      col, List.range_succ]
  constructor
  · simp only [evalCall, hout, metricUpdate]
    norm_num [batchTP, batchFN, topKIndices, sortIdxDesc, insertDesc,
      List.range_succ, List.count_cons, MetricState.mk.injEq]
  · simp only [evalCall, hout, metricUpdate]
    norm_num [batchTP, batchFN, topKIndices, sortIdxDesc, insertDesc,
      recallValue, List.range_succ, List.count_cons]

/-! ## The evaluation loop of `main`

For each test user present in the train-user set the driver increments
`valid_test_users`, fetches the held-out test event indices, replicates the
user's uncorrupted input once per held-out index (`np.tile`), runs one
evaluation call, and accumulates `np.sum(precision_at_k)/k` and the fetched
recall values; afterwards it averages by `valid_test_users`, or reports zeros
when that count is zero.  The data source is an external collaborator and
enters as the functions `testIdxOf`, `xOf`, `gidOf`, `vidOf`. -/

structure EvalAcc where
  p5 : ℚ
  p10 : ℚ
  r5 : ℚ
  r10 : ℚ
  valid : ℕ
  st : MetricState
deriving DecidableEq

/-- Accumulators at the start of the evaluation loop (`precision_5 = 0`, …,
`valid_test_users = 0`, freshly initialized local metric variables). -/
def initEvalAcc : EvalAcc := ⟨0, 0, 0, 0, 0, ⟨0, 0, 0, 0⟩⟩

/-- The call `np.tile(x, (n, 1))` for a single row `x`. -/
def tileRows (v : Vec) (n : ℕ) : Mat := List.replicate n v

/-- One iteration of the per-test-user loop: skip users absent from the
train-user set; otherwise count the user, build the replicated batch, run the
metrics, and accumulate. -/
def stepUser (M : Model) (trainUsers : List ℕ) (testIdxOf : ℕ → List ℕ)
    (xOf : ℕ → Vec) (gidOf vidOf : ℕ → List ℕ) (acc : EvalAcc) (u : ℕ) :
    EvalAcc :=
  if u ∈ trainUsers then
    let testIdx := testIdxOf u
    let fetch := evalCall M (tileRows (xOf u) testIdx.length) testIdx
      (gidOf u) (vidOf u) acc.st
    { p5 := acc.p5 + (fetch.1.prec5.count true : ℚ) / 5,
      p10 := acc.p10 + (fetch.1.prec10.count true : ℚ) / 10,
      r5 := acc.r5 + fetch.1.rec5,
      r10 := acc.r10 + fetch.1.rec10,
      valid := acc.valid + 1,
      st := fetch.2 }
  else acc

/-- The whole evaluation pass over the test users. -/
def runEval (M : Model) (trainUsers testUsers : List ℕ)
    (testIdxOf : ℕ → List ℕ) (xOf : ℕ → Vec) (gidOf vidOf : ℕ → List ℕ) :
    EvalAcc :=
  testUsers.foldl (stepUser M trainUsers testIdxOf xOf gidOf vidOf) initEvalAcc

/-- The reported averages: sums divided by the eligible-user count, or all
zeros when `valid_test_users` stayed `0`. -/
def averages (acc : EvalAcc) : ℚ × ℚ × ℚ × ℚ :=
  if 0 < acc.valid then
    (acc.p5 / acc.valid, acc.p10 / acc.valid, acc.r5 / acc.valid,
      acc.r10 / acc.valid)
  else (0, 0, 0, 0)

lemma foldl_stepUser_skip (M : Model) (trainUsers : List ℕ)
    (testIdxOf : ℕ → List ℕ) (xOf : ℕ → Vec) (gidOf vidOf : ℕ → List ℕ) :
    ∀ (l : List ℕ) (acc : EvalAcc), (∀ u ∈ l, u ∉ trainUsers) →
      l.foldl (stepUser M trainUsers testIdxOf xOf gidOf vidOf) acc = acc := by
  intro l
  induction l with
  | nil => intro acc _; rfl
  | cons u us ih =>
    intro acc h
    have hu : u ∉ trainUsers := h u (List.mem_cons_self u us)
    simp only [List.foldl_cons, stepUser, if_neg hu]
    exact ih acc (fun v hv => h v (List.mem_cons_of_mem u hv))

/-- C6: when no test user is present in the train-user set, the eligible-user
count is zero and all four averaged metrics are reported as exactly `0` — the
guard `valid_test_users > 0` prevents any division. -/
theorem zero_eligible_users_all_zero (M : Model) (trainUsers testUsers : List ℕ)
    (testIdxOf : ℕ → List ℕ) (xOf : ℕ → Vec) (gidOf vidOf : ℕ → List ℕ)
    (h : ∀ u ∈ testUsers, u ∉ trainUsers) :
    (runEval M trainUsers testUsers testIdxOf xOf gidOf vidOf).valid = 0 ∧
    averages (runEval M trainUsers testUsers testIdxOf xOf gidOf vidOf)
      = (0, 0, 0, 0) := by
  have hrun : runEval M trainUsers testUsers testIdxOf xOf gidOf vidOf
      = initEvalAcc :=
    foldl_stepUser_skip M trainUsers testIdxOf xOf gidOf vidOf testUsers
      initEvalAcc h
  rw [hrun]
  exact ⟨rfl, rfl⟩

/-- Witness for C6: a test-user list disjoint from the train users. -/
theorem zero_eligible_users_all_zero_witness :
    (∀ u ∈ [2, 3], u ∉ [(1 : ℕ)]) ∧
    ((runEval M3 [1] [2, 3] (fun _ => []) (fun _ => [1]) (fun _ => [])
        (fun _ => [])).valid = 0 ∧
      averages (runEval M3 [1] [2, 3] (fun _ => []) (fun _ => [1])
        (fun _ => []) (fun _ => [])) = (0, 0, 0, 0)) :=
  ⟨by decide,
    zero_eligible_users_all_zero M3 [1] [2, 3] (fun _ => []) (fun _ => [1])
      (fun _ => []) (fun _ => []) (by decide)⟩

lemma preActivation_nil (M : Model) (gid vid : List ℕ) :
    preActivation M [] gid vid = [] := by
  unfold preActivation
  cases M.venueBias <;> cases M.groupBias <;> simp [xwPlusB, broadcastAdd]

lemma outputsOf_nil (M : Model) (gid vid : List ℕ) :
    outputsOf M [] gid vid = [] := by
  simp [outputsOf, hiddenOf, preActivation_nil, mapMat, xwPlusB]

/-- C10 (amended): an eligible test user whose held-out test index list is
empty is still counted in the denominator and contributes an empty batch,
which adds zero to both precision sums and leaves the recall accumulators
unchanged; the recall *sums*, however, receive the streaming value read from
the carried-over accumulators — zero only when no true positives were
accumulated earlier in the evaluation. -/
theorem eligible_user_empty_testset (M : Model) (trainUsers : List ℕ)
    (testIdxOf : ℕ → List ℕ) (xOf : ℕ → Vec) (gidOf vidOf : ℕ → List ℕ)
    (acc : EvalAcc) (u : ℕ) (hu : u ∈ trainUsers) (he : testIdxOf u = []) :
    (stepUser M trainUsers testIdxOf xOf gidOf vidOf acc u).valid
        = acc.valid + 1 ∧
    (stepUser M trainUsers testIdxOf xOf gidOf vidOf acc u).p5 = acc.p5 ∧
    (stepUser M trainUsers testIdxOf xOf gidOf vidOf acc u).p10 = acc.p10 ∧
    (stepUser M trainUsers testIdxOf xOf gidOf vidOf acc u).st = acc.st ∧
    (stepUser M trainUsers testIdxOf xOf gidOf vidOf acc u).r5
        = acc.r5 + recallValue acc.st.tp5 acc.st.fn5 ∧
    (stepUser M trainUsers testIdxOf xOf gidOf vidOf acc u).r10
        = acc.r10 + recallValue acc.st.tp10 acc.st.fn10 ∧
    (acc.st.tp5 = 0 →
      (stepUser M trainUsers testIdxOf xOf gidOf vidOf acc u).r5 = acc.r5) ∧
    (acc.st.tp10 = 0 →
      (stepUser M trainUsers testIdxOf xOf gidOf vidOf acc u).r10 = acc.r10) := by
  have hstep : stepUser M trainUsers testIdxOf xOf gidOf vidOf acc u =
      { p5 := acc.p5 + 0, p10 := acc.p10 + 0,
        r5 := acc.r5 + recallValue acc.st.tp5 acc.st.fn5,
        r10 := acc.r10 + recallValue acc.st.tp10 acc.st.fn10,
        valid := acc.valid + 1, st := acc.st } := by
    simp only [stepUser, if_pos hu, evalCall, he, metricUpdate, batchTP,
      batchFN, List.zipWith_nil_right, List.count_nil, Nat.add_zero,
      Nat.cast_zero, zero_div]
  rw [hstep]
  refine ⟨rfl, by simp, by simp, rfl, rfl, rfl, ?_, ?_⟩
  · intro h0
    simp [recallValue, h0]
  · intro h0
    simp [recallValue, h0]

/-- Witness for C10 at a concrete eligible user with no held-out events. -/
theorem eligible_user_empty_testset_witness :
    ((0 : ℕ) ∈ [0]) ∧ (((fun _ => []) : ℕ → List ℕ) 0 = []) ∧
    ((stepUser M3 [0] (fun _ => []) (fun _ => [1]) (fun _ => [])
        (fun _ => []) initEvalAcc 0).valid = initEvalAcc.valid + 1 ∧
      (stepUser M3 [0] (fun _ => []) (fun _ => [1]) (fun _ => [])
        (fun _ => []) initEvalAcc 0).p5 = initEvalAcc.p5 ∧
      (stepUser M3 [0] (fun _ => []) (fun _ => [1]) (fun _ => [])
        (fun _ => []) initEvalAcc 0).p10 = initEvalAcc.p10 ∧
      (stepUser M3 [0] (fun _ => []) (fun _ => [1]) (fun _ => [])
        (fun _ => []) initEvalAcc 0).st = initEvalAcc.st ∧
      (stepUser M3 [0] (fun _ => []) (fun _ => [1]) (fun _ => [])
        (fun _ => []) initEvalAcc 0).r5
          = initEvalAcc.r5 + recallValue initEvalAcc.st.tp5 initEvalAcc.st.fn5 ∧
      (stepUser M3 [0] (fun _ => []) (fun _ => [1]) (fun _ => [])
        (fun _ => []) initEvalAcc 0).r10
          = initEvalAcc.r10 + recallValue initEvalAcc.st.tp10 initEvalAcc.st.fn10 ∧
      (initEvalAcc.st.tp5 = 0 →
        (stepUser M3 [0] (fun _ => []) (fun _ => [1]) (fun _ => [])
          (fun _ => []) initEvalAcc 0).r5 = initEvalAcc.r5) ∧
      (initEvalAcc.st.tp10 = 0 →
        (stepUser M3 [0] (fun _ => []) (fun _ => [1]) (fun _ => [])
          (fun _ => []) initEvalAcc 0).r10 = initEvalAcc.r10)) :=
  ⟨by decide, rfl,
    eligible_user_empty_testset M3 [0] (fun _ => []) (fun _ => [1])
      (fun _ => []) (fun _ => []) initEvalAcc 0 (by decide) rfl⟩

/-- C10 (counterexample): when the streaming accumulators already hold a true
positive from earlier users, the same empty-batch eligible user adds the
current accumulated recall (here `1`, not `0`) to the recall@5 sum. -/
theorem eligible_user_empty_testset_counterexample :
    (stepUser M3 [0] (fun _ => []) (fun _ => [1]) (fun _ => []) (fun _ => [])
        ⟨0, 0, 0, 0, 0, ⟨1, 0, 1, 0⟩⟩ 0).r5 ≠
      (⟨0, 0, 0, 0, 0, ⟨1, 0, 1, 0⟩⟩ : EvalAcc).r5 := by
  norm_num [stepUser, tileRows, evalCall, metricUpdate, batchTP, batchFN,
    recallValue, M3, outputsOf, hiddenOf, preActivation, xwPlusB, mapMat,
    broadcastAdd]

/-! ## Training-step shape handling (C4)

The trainer builds `gather_indices = list(zip(range(len(y)), item))`; Python
`zip` stops at the shorter argument.  All placeholders involved have dynamic
shape `[None]`, so the only shape check that can fire for a `len(y) ≠
len(item)` sample is the runtime elementwise-broadcast check inside
`mean_squared_error(targets, y)`, where `targets` has one entry per gather
index. -/

/-- The trainer line `gather_indices = list(zip(range(len(y)), item))`. -/
def gatherIndicesOf (y : Vec) (item : List ℕ) : List (ℕ × ℕ) :=
  (List.range y.length).zip item

/-- Runtime compatibility of two rank-1 tensor lengths under elementwise
broadcasting: equal, or either side of length 1. -/
def broadcastCompat1 (a b : ℕ) : Bool := a == b || a == 1 || b == 1

/-- Whether the training step for sample `(y, item)` aborts with a runtime
shape error: it does iff the truncated `targets` length is
broadcast-incompatible with `len(y)`. -/
def trainStepFailsLoudly (y : Vec) (item : List ℕ) : Bool :=
  !(broadcastCompat1 (gatherIndicesOf y item).length y.length)

/-- C4 (counterexample): with `len(y) = 2` and `len(item) = 3` the zip
silently drops the third item index and the step runs without any error —
it does not fail loudly. -/
theorem train_step_truncates_counterexample :
    gatherIndicesOf [1, 0] [0, 2, 3] = [(0, 0), (1, 2)] ∧
    trainStepFailsLoudly [1, 0] [0, 2, 3] = false := by
  constructor
  · rfl
  · rfl

/-- C4 (amended): for a sample with `len(y) ≠ len(item)` the gather-index
list is silently truncated to the shorter length, and the step fails loudly
iff the loss shapes cannot broadcast — that is, iff `len(item) < len(y)` with
`len(item) ≠ 1` and `len(y) ≠ 1`; in particular extra item indices
(`len(item) > len(y)`) are always dropped silently. -/
theorem mismatched_sample_truncation (y : Vec) (item : List ℕ)
    (_h : y.length ≠ item.length) :
    (gatherIndicesOf y item).length = min y.length item.length ∧
    (trainStepFailsLoudly y item = true ↔
      (item.length < y.length ∧ item.length ≠ 1 ∧ y.length ≠ 1)) := by
  constructor
  · simp [gatherIndicesOf]
  · simp only [trainStepFailsLoudly, broadcastCompat1, gatherIndicesOf,
      List.length_zip, List.length_range, Bool.not_eq_true',
      Bool.or_eq_false_iff, beq_eq_false_iff_ne, ne_eq, Bool.not_eq_true,
      Bool.or_eq_true, beq_iff_eq]
    omega

/-- Witness for C4 at `len(y) = 3`, `len(item) = 2` (a loudly failing case). -/
theorem mismatched_sample_truncation_witness :
    (([1, 2, 3] : Vec).length ≠ [(0 : ℕ), 1].length) ∧
    ((gatherIndicesOf [1, 2, 3] [0, 1]).length
        = min ([1, 2, 3] : Vec).length [(0 : ℕ), 1].length ∧
      (trainStepFailsLoudly [1, 2, 3] [0, 1] = true ↔
        ([(0 : ℕ), 1].length < ([1, 2, 3] : Vec).length ∧
          [(0 : ℕ), 1].length ≠ 1 ∧ ([1, 2, 3] : Vec).length ≠ 1))) :=
  ⟨by decide, mismatched_sample_truncation [1, 2, 3] [0, 1] (by decide)⟩

/-! ## Construction-time configuration errors (C9)

`__init__` builds, in order: placeholder `x` `[None, n_inputs]`, variables `W`
`[n_inputs, n_hidden]` and `Bias` `[n_hidden]`, the optional `VenueBias`
`[n_venues, n_hidden]` and `GroupBias` `[n_groups, n_hidden]`, the
`ACTIVATION_FN[hidden_activation]` lookup, the
`ACTIVATION_FN[output_activation]` lookup, and the `fully_connected` output
layer `[n_hidden, n_outputs]`.  TensorFlow shape construction rejects negative
dimensions (`Dimension -k must be >= 0`) but accepts zero-sized dimensions
(empty tensors are legal), and a missing registry key raises `KeyError` —
there is no explicit positivity validation anywhere in `__init__`. -/

/-- One TensorFlow dimension check: negative is fatal, zero is accepted. -/
def requireDim (n : ℤ) : Except String Unit :=
  if n < 0 then .error "Dimension must be >= 0" else .ok ()

/-- One `ACTIVATION_FN[name]` registry lookup (`KeyError` when absent). -/
def requireAct (f : String) (registry : List String) : Except String Unit :=
  if f ∈ registry then .ok () else .error ("KeyError: " ++ f)

/-- Sequencing of fallible construction steps (first error aborts). -/
def seqE (a b : Except String Unit) : Except String Unit :=
  match a with
  | .ok _ => b
  | .error e => .error e

/-- Dimension check for an optional latent-factor cardinality. -/
def optDim : Option ℤ → Except String Unit
  | some v => requireDim v
  | none => .ok ()

/-- The construction-time failure behavior of
`LatentFactorAutoEncoder.__init__`, in source order. -/
def constructModel (nIn nH nOut : ℤ) (nG nV : Option ℤ)
    (hFn oFn : String) (registry : List String) : Except String Unit :=
  seqE (requireDim nIn) <|
  seqE (requireDim nIn) <| seqE (requireDim nH) <|
  seqE (requireDim nH) <|
  seqE (optDim nV) <| seqE (optDim nG) <|
  seqE (requireAct hFn registry) <|
  seqE (requireAct oFn registry) <|
  seqE (requireDim nOut) <| .ok ()

/-- C9 (counterexample): `n_inputs = 0` is non-positive, yet construction
succeeds — TensorFlow happily builds the zero-sized `W`; nothing in
`__init__` checks positivity. -/
theorem construct_zero_dims_ok_counterexample :
    constructModel 0 1 1 none none "relu" "sigmoid" ["relu", "sigmoid"]
      = .ok () := by
  rfl

/-- C9 (amended): construction succeeds iff every supplied dimension
(including the optional latent-factor cardinalities) is non-negative and both
activation names are in the registry; equivalently, it fails — at
construction time, fatally — exactly when some dimension is negative or an
activation name is unknown.  Zero-sized dimensions are accepted. -/
theorem construct_ok_iff (nIn nH nOut : ℤ) (nG nV : Option ℤ)
    (hFn oFn : String) (registry : List String) :
    constructModel nIn nH nOut nG nV hFn oFn registry = .ok () ↔
      (0 ≤ nIn ∧ 0 ≤ nH ∧ 0 ≤ nOut ∧ (∀ v ∈ nV, 0 ≤ v) ∧ (∀ g ∈ nG, 0 ≤ g) ∧
        hFn ∈ registry ∧ oFn ∈ registry) := by
  cases nG <;> cases nV <;>
    simp only [constructModel, seqE, requireDim, optDim, requireAct,
      Option.mem_def, Option.some.injEq, forall_eq', forall_const,
      Option.not_mem_none, false_implies, implies_true, true_and] <;>
    split_ifs <;>
    simp_all

/-! ## One training step on the group embedding table (C8)

For the scenario "group factor of cardinality 3, venue factor absent" we embed
the gradient that `optimizer.minimize(self.loss)` backpropagates to
`GroupBias` and the first Adam update.  The loss reaches the table only
through `group_factor = squeeze(reduce_sum(embedding_lookup(GroupBias,
group_id), 0))`, so the gradient of table row `r` is
`count(r in group_id) · dL/d(group_factor)`.  TensorFlow's Adam at step
`t = 1` moves a scalar parameter by `lr·√(1−β₂)·g / (√(1−β₂)·|g| + ε)`; the
irrational constant `√(1−β₂)` is kept as a symbolic positive rational
parameter `s` (every statement below holds for each positive value, and a
zero gradient moves nothing for any of them).  Rows absent from `group_id`
receive a zero gradient, for which the update is exactly zero — in TF's
sparse Adam path they are not touched at all. -/

/-- Elementwise product of two equal-shaped matrices. -/
def hadamard (m1 m2 : Mat) : Mat := List.zipWith (List.zipWith (· * ·)) m1 m2

/-- A zero matrix of the same shape as `m`. -/
def zeroLike (m : Mat) : Mat := m.map (fun r => r.map (fun _ => 0))

/-- Add `v` into entry `(i, j)` of `m`. -/
def updAdd (m : Mat) (i j : ℕ) (v : ℚ) : Mat :=
  m.set i ((m.getD i []).set j ((m.getD i []).getD j 0 + v))

/-- Scatter-add values at rank-2 indices: the gradient of `tf.gather_nd`. -/
def scatterAdd (m : Mat) (idx : List (ℕ × ℕ)) (vals : Vec) : Mat :=
  (idx.zip vals).foldl (fun acc pv => updAdd acc pv.1.1 pv.1.2 pv.2) m

/-- Scale a vector by a rational. -/
def scaleVec (c : ℚ) (v : Vec) : Vec := v.map (c * ·)

/-- The activation `tf.nn.relu`. -/
def relu (q : ℚ) : ℚ := max 0 q

/-- The gradient TensorFlow uses for `relu` (zero at the kink). -/
def reluGrad (q : ℚ) : ℚ := if 0 < q then 1 else 0

/-- The model of scenario B: group factor enabled, venue factor absent. -/
def groupModel (W : Mat) (b : Vec) (G : Mat) (V : Mat) (c : Vec)
    (σh σo : ℚ → ℚ) : Model :=
  { W := W, b := b, venueBias := none, groupBias := some G,
    outW := V, outB := c, hiddenAct := σh, outputAct := σo }

/-- The gradient of the partial MSE loss with respect to the broadcast group
factor vector, by reverse accumulation through the graph of `__init__`:
`d targets = 2(targets − y)/n`, scattered back through `gather_nd`, through
the output activation, the output projection, the hidden activation, and the
broadcast add (summed over the batch rows). -/
def gradGroupVec (σh σhGrad σo σoGrad : ℚ → ℚ) (W : Mat) (b : Vec) (G : Mat)
    (V : Mat) (c : Vec) (x : Mat) (gid : List ℕ) (gidx : List (ℕ × ℕ))
    (y : Vec) : Vec :=
  let pre := preActivation (groupModel W b G V c σh σo) x gid []
  let hid := mapMat σh pre
  let z := xwPlusB hid V c
  let out := mapMat σo z
  let t := gatherNd out gidx
  let dT := List.zipWith (fun ti yi => 2 * (ti - yi) / (t.length : ℚ)) t y
  let dOut := scatterAdd (zeroLike out) gidx dT
  let dZ := hadamard dOut (mapMat σoGrad z)
  let dHid := dZ.map (fun dr => V.map (fun vj => dot dr vj))
  let dPre := hadamard dHid (mapMat σhGrad pre)
  reduceSum0 dPre

/-- The gradient of the loss with respect to the whole group table: row `r`
receives the factor gradient once per occurrence of `r` in `group_id`. -/
def gradGroupTable (σh σhGrad σo σoGrad : ℚ → ℚ) (W : Mat) (b : Vec) (G : Mat)
    (V : Mat) (c : Vec) (x : Mat) (gid : List ℕ) (gidx : List (ℕ × ℕ))
    (y : Vec) : Mat :=
  (List.range G.length).map
    (fun r => scaleVec (gid.count r)
      (gradGroupVec σh σhGrad σo σoGrad W b G V c x gid gidx y))

/-- The movement of one scalar parameter in the first Adam step:
`lr·s·g / (s·|g| + ε)` where `s` stands for `√(1−β₂)`. -/
def adamDelta (lr s eps g : ℚ) : ℚ := lr * s * g / (s * |g| + eps)

/-- First Adam update of one scalar parameter with gradient `g`. -/
def adamStep1 (lr s eps θ g : ℚ) : ℚ := θ - adamDelta lr s eps g

/-- First Adam update of a parameter vector. -/
def adamStepVec (lr s eps : ℚ) (θv gv : Vec) : Vec :=
  List.zipWith (adamStep1 lr s eps) θv gv

/-- The group table after one `sess.run(model.train)`: every row updated by
Adam with its backpropagated gradient. -/
def trainStepGroupTable (lr s eps : ℚ) (σh σhGrad σo σoGrad : ℚ → ℚ)
    (W : Mat) (b : Vec) (G : Mat) (V : Mat) (c : Vec) (x : Mat)
    (gid : List ℕ) (gidx : List (ℕ × ℕ)) (y : Vec) : Mat :=
  List.zipWith (adamStepVec lr s eps) G
    (gradGroupTable σh σhGrad σo σoGrad W b G V c x gid gidx y)

lemma length_addVec_same (a b : Vec) (n : ℕ) (ha : a.length = n)
    (hb : b.length = n) : (addVec a b).length = n := by
  simp [addVec, ha, hb]

lemma foldl_addVec_length (n : ℕ) :
    ∀ (rs : List Vec) (acc : Vec), acc.length = n → (∀ r ∈ rs, r.length = n) →
      (rs.foldl addVec acc).length = n := by
  intro rs
  induction rs with
  | nil => intro acc h _; exact h
  | cons q qs ih =>
    intro acc h hrs
    simp only [List.foldl_cons]
    exact ih _ (length_addVec_same _ _ _ h (hrs q (List.mem_cons_self q qs)))
      (fun p hp => hrs p (List.mem_cons_of_mem q hp))

lemma reduceSum0_length (m : Mat) (n : ℕ) (hne : m ≠ [])
    (h : ∀ r ∈ m, r.length = n) : (reduceSum0 m).length = n := by
  match m, hne with
  | r :: rs, _ =>
    simp only [reduceSum0]
    exact foldl_addVec_length n rs r (h r (List.mem_cons_self r rs))
      (fun q hq => h q (List.mem_cons_of_mem r hq))

lemma rows_hadamard (m1 m2 : Mat) (n : ℕ) (h1 : ∀ r ∈ m1, r.length = n)
    (h2 : ∀ r ∈ m2, r.length = n) :
    ∀ r ∈ hadamard m1 m2, r.length = n := by
  unfold hadamard
  induction m1 generalizing m2 with
  | nil => simp
  | cons a as ih =>
    cases m2 with
    | nil => simp
    | cons b bs =>
      simp only [List.zipWith_cons_cons]
      intro r hr
      rcases List.mem_cons.mp hr with hr | hr
      · rw [hr]
        simp [List.length_zipWith, h1 a (by simp), h2 b (by simp)]
      · exact ih bs (fun q hq => h1 q (List.mem_cons_of_mem a hq))
          (fun q hq => h2 q (List.mem_cons_of_mem b hq)) r hr

lemma rows_mapMat (f : ℚ → ℚ) (m : Mat) (n : ℕ) (h : ∀ r ∈ m, r.length = n) :
    ∀ r ∈ mapMat f m, r.length = n := by
  intro r hr
  simp only [mapMat, List.mem_map] at hr
  obtain ⟨q, hq, rfl⟩ := hr
  simp [h q hq]

lemma rows_broadcastAdd (m : Mat) (v : Vec) (n : ℕ)
    (hm : ∀ r ∈ m, r.length = n) (hv : v.length = n) :
    ∀ r ∈ broadcastAdd m v, r.length = n := by
  intro r hr
  simp only [broadcastAdd, List.mem_map] at hr
  obtain ⟨q, hq, rfl⟩ := hr
  exact length_addVec_same _ _ _ (hm q hq) hv

lemma getD_mem_of_lt (m : Mat) (i : ℕ) (h : i < m.length) :
    m.getD i [] ∈ m := by
  rw [List.getD_eq_getElem?_getD, List.getElem?_eq_getElem h]
  exact List.getElem_mem h

lemma rows_updAdd (m : Mat) (i j : ℕ) (v : ℚ) (n : ℕ)
    (h : ∀ r ∈ m, r.length = n) : ∀ r ∈ updAdd m i j v, r.length = n := by
  by_cases hi : i < m.length
  · intro r hr
    rcases List.mem_or_eq_of_mem_set hr with hm | he
    · exact h r hm
    · rw [he, List.length_set]
      exact h _ (getD_mem_of_lt m i hi)
  · rw [updAdd, List.set_eq_of_length_le (le_of_not_lt hi)]
    exact h

lemma length_updAdd (m : Mat) (i j : ℕ) (v : ℚ) :
    (updAdd m i j v).length = m.length := List.length_set m i _

lemma rows_scatterAdd (idx : List (ℕ × ℕ)) (vals : Vec) (m : Mat) (n : ℕ)
    (h : ∀ r ∈ m, r.length = n) : ∀ r ∈ scatterAdd m idx vals, r.length = n := by
  unfold scatterAdd
  generalize idx.zip vals = l
  induction l generalizing m with
  | nil => exact h
  | cons pv pvs ih =>
    simp only [List.foldl_cons]
    exact ih _ (rows_updAdd _ _ _ _ _ h)

lemma length_scatterAdd (idx : List (ℕ × ℕ)) (vals : Vec) (m : Mat) :
    (scatterAdd m idx vals).length = m.length := by
  unfold scatterAdd
  generalize idx.zip vals = l
  induction l generalizing m with
  | nil => rfl
  | cons pv pvs ih =>
    simp only [List.foldl_cons]
    rw [ih, length_updAdd]

lemma rows_zeroLike (m : Mat) (n : ℕ) (h : ∀ r ∈ m, r.length = n) :
    ∀ r ∈ zeroLike m, r.length = n := by
  intro r hr
  simp only [zeroLike, List.mem_map] at hr
  obtain ⟨q, hq, rfl⟩ := hr
  simp [h q hq]

lemma length_hadamard (m1 m2 : Mat) :
    (hadamard m1 m2).length = min m1.length m2.length :=
  List.length_zipWith _ _ _

lemma preActivation_groupModel (W : Mat) (b : Vec) (G : Mat) (V : Mat)
    (c : Vec) (σh σo : ℚ → ℚ) (x : Mat) (gid vid : List ℕ) :
    preActivation (groupModel W b G V c σh σo) x gid vid =
      broadcastAdd (xwPlusB x W b) (reduceSum0 (embeddingLookup G gid)) := rfl

lemma length_gradGroupVec (σh σhGrad σo σoGrad : ℚ → ℚ) (W : Mat) (b : Vec)
    (G : Mat) (V : Mat) (c : Vec) (x : Mat) (gid : List ℕ)
    (gidx : List (ℕ × ℕ)) (y : Vec) (hx : x ≠ [])
    (hgv : (reduceSum0 (embeddingLookup G gid)).length = b.length)
    (hV : V.length = b.length) :
    (gradGroupVec σh σhGrad σo σoGrad W b G V c x gid gidx y).length
      = b.length := by
  have hxlen : x.length ≠ 0 := fun h => hx (List.length_eq_zero.mp h)
  have hprerows : ∀ r ∈ preActivation (groupModel W b G V c σh σo) x gid [],
      r.length = b.length := by
    rw [preActivation_groupModel]
    exact rows_broadcastAdd _ _ _ (row_length_xwPlusB x W b) hgv
  have hprelen : (preActivation (groupModel W b G V c σh σo) x gid []).length
      = x.length := by
    rw [preActivation_groupModel, length_broadcastAdd, length_xwPlusB]
  simp only [gradGroupVec]
  apply reduceSum0_length _ b.length
  · -- the batch of row gradients is nonempty
    intro hnil
    apply hxlen
    have := congrArg List.length hnil
    simp only [length_hadamard, List.length_map, length_scatterAdd, zeroLike,
      length_mapMat, length_xwPlusB, hprelen, min_self, List.length_nil] at this
    exact this
  · -- every row gradient has the hidden width
    apply rows_hadamard _ _ b.length
    · intro r hr
      rcases List.mem_map.mp hr with ⟨dr, -, rfl⟩
      rw [List.length_map, hV]
    · exact rows_mapMat _ _ _ hprerows

lemma adamDelta_zero (lr s eps : ℚ) : adamDelta lr s eps 0 = 0 := by
  simp [adamDelta]

lemma adamDelta_eq_zero_iff (lr s eps : ℚ) (hlr : 0 < lr) (hs : 0 < s)
    (heps : 0 < eps) (g : ℚ) : adamDelta lr s eps g = 0 ↔ g = 0 := by
  unfold adamDelta
  rw [div_eq_zero_iff]
  constructor
  · rintro (h | h)
    · rcases mul_eq_zero.mp h with h' | h'
      · exact absurd h' (ne_of_gt (mul_pos hlr hs))
      · exact h'
    · exfalso
      have hpos : 0 < s * |g| + eps := by positivity
      rw [h] at hpos
      exact lt_irrefl 0 hpos
  · intro h
    subst h
    simp

lemma adamStepVec_zero_grad (lr s eps : ℚ) :
    ∀ (θv gv : Vec), θv.length ≤ gv.length → (∀ g ∈ gv, g = 0) →
      adamStepVec lr s eps θv gv = θv := by
  intro θv
  induction θv with
  | nil => intro gv _ _; rfl
  | cons θ θs ih =>
    intro gv hlen hz
    cases gv with
    | nil => simp at hlen
    | cons g gs =>
      simp only [adamStepVec, List.zipWith_cons_cons]
      rw [hz g (List.mem_cons_self g gs)]
      simp only [adamStep1, adamDelta_zero, sub_zero]
      congr 1
      exact ih gs (by simpa using hlen)
        (fun q hq => hz q (List.mem_cons_of_mem g hq))

lemma adamStepVec_eq_self_iff (lr s eps : ℚ) (hlr : 0 < lr) (hs : 0 < s)
    (heps : 0 < eps) :
    ∀ (θv gv : Vec), θv.length = gv.length →
      (adamStepVec lr s eps θv gv = θv ↔ ∀ g ∈ gv, g = 0) := by
  intro θv
  induction θv with
  | nil =>
    intro gv hlen
    have : gv = [] := List.length_eq_zero.mp hlen.symm
    subst this
    simp [adamStepVec]
  | cons θ θs ih =>
    intro gv hlen
    cases gv with
    | nil => simp at hlen
    | cons g gs =>
      simp only [adamStepVec, List.zipWith_cons_cons]
      constructor
      · intro h
        have h1 : adamStep1 lr s eps θ g = θ := (List.cons_eq_cons.mp h).1
        have h2 : List.zipWith (adamStep1 lr s eps) θs gs = θs :=
          (List.cons_eq_cons.mp h).2
        intro q hq
        rcases List.mem_cons.mp hq with rfl | hq
        · have hδ : adamDelta lr s eps q = 0 := by
            unfold adamStep1 at h1
            linarith
          exact (adamDelta_eq_zero_iff lr s eps hlr hs heps q).mp hδ
        · exact (ih gs (by simpa using hlen)).mp h2 q hq
      · intro h
        rw [h g (List.mem_cons_self g gs)]
        simp only [adamStep1, adamDelta_zero, sub_zero]
        congr 1
        exact (ih gs (by simpa using hlen)).mpr
          (fun q hq => h q (List.mem_cons_of_mem g hq))

lemma getD_zipWith_lt (f : Vec → Vec → Vec) :
    ∀ (l1 l2 : Mat) (i : ℕ), i < l1.length → i < l2.length →
      (List.zipWith f l1 l2).getD i [] = f (l1.getD i []) (l2.getD i []) := by
  intro l1
  induction l1 with
  | nil => intro l2 i h1 _; simp at h1
  | cons a as ih =>
    intro l2 i h1 h2
    cases l2 with
    | nil => simp at h2
    | cons b bs =>
      cases i with
      | zero => simp [List.zipWith_cons_cons]
      | succ n =>
        simp only [List.zipWith_cons_cons, List.getD_cons_succ]
        exact ih bs n (by simpa using h1) (by simpa using h2)

lemma scaleVec_one (v : Vec) : scaleVec 1 v = v := by
  simp [scaleVec]

lemma gradGroupTable_row (σh σhGrad σo σoGrad : ℚ → ℚ) (W : Mat) (b : Vec)
    (G : Mat) (V : Mat) (c : Vec) (x : Mat) (gid : List ℕ)
    (gidx : List (ℕ × ℕ)) (y : Vec) (r : ℕ) (hr : r < G.length) :
    (gradGroupTable σh σhGrad σo σoGrad W b G V c x gid gidx y).getD r []
      = scaleVec (gid.count r)
        (gradGroupVec σh σhGrad σo σoGrad W b G V c x gid gidx y) := by
  unfold gradGroupTable
  rw [getD_map_lt _ _ _ 0 _ (by simpa using hr)]
  congr 2
  rw [List.getD_eq_getElem?_getD, List.getElem?_eq_getElem (by simpa using hr)]
  simp

/-- C8 (amended): in scenario B (`n_groups = 3`, venue factor absent,
`group_id = [1]`), one training step leaves group embedding rows 0 and 2
exactly unchanged (their backpropagated gradient is zero, so the first Adam
update moves them by `lr·s·0/(s·0+ε) = 0` — in TF's sparse Adam path they are
not even touched), and it changes row 1 if and only if the gradient reaching
the group factor is nonzero (which holds for generic parameters, e.g. the
witness instance, but can fail, e.g. when every hidden relu unit is dead). -/
theorem group_embedding_row_update (lr s eps : ℚ) (σh σhGrad σo σoGrad : ℚ → ℚ)
    (W : Mat) (b : Vec) (G : Mat) (V : Mat) (c : Vec) (x : Mat)
    (gidx : List (ℕ × ℕ)) (y : Vec)
    (hlr : 0 < lr) (hs : 0 < s) (heps : 0 < eps)
    (hG3 : G.length = 3) (hrows : ∀ r ∈ G, r.length = b.length)
    (hV : V.length = b.length) (hx : x ≠ []) :
    (trainStepGroupTable lr s eps σh σhGrad σo σoGrad W b G V c x [1] gidx y).getD 0 []
        = G.getD 0 [] ∧
    (trainStepGroupTable lr s eps σh σhGrad σo σoGrad W b G V c x [1] gidx y).getD 2 []
        = G.getD 2 [] ∧
    ((trainStepGroupTable lr s eps σh σhGrad σo σoGrad W b G V c x [1] gidx y).getD 1 []
        ≠ G.getD 1 [] ↔
      ∃ q ∈ gradGroupVec σh σhGrad σo σoGrad W b G V c x [1] gidx y, q ≠ 0) := by
  have hgv : (reduceSum0 (embeddingLookup G [1])).length = b.length := by
    show (reduceSum0 [G.getD 1 []]).length = b.length
    show (G.getD 1 []).length = b.length
    exact hrows _ (getD_mem_of_lt G 1 (by omega))
  have hglen : (gradGroupVec σh σhGrad σo σoGrad W b G V c x [1] gidx y).length
      = b.length :=
    length_gradGroupVec σh σhGrad σo σoGrad W b G V c x [1] gidx y hx hgv hV
  have hTlen : (gradGroupTable σh σhGrad σo σoGrad W b G V c x [1] gidx y).length
      = G.length := by
    simp [gradGroupTable]
  have hstep : ∀ r : ℕ, r < 3 →
      (trainStepGroupTable lr s eps σh σhGrad σo σoGrad W b G V c x [1] gidx y).getD r []
        = adamStepVec lr s eps (G.getD r [])
          (scaleVec (List.count r [1])
            (gradGroupVec σh σhGrad σo σoGrad W b G V c x [1] gidx y)) := by
    intro r hr
    unfold trainStepGroupTable
    rw [getD_zipWith_lt _ _ _ r (by omega) (by rw [hTlen]; omega),
      gradGroupTable_row σh σhGrad σo σoGrad W b G V c x [1] gidx y r (by omega)]
  have hzero : ∀ r : ℕ, r < 3 → List.count r [1] = 0 →
      (trainStepGroupTable lr s eps σh σhGrad σo σoGrad W b G V c x [1] gidx y).getD r []
        = G.getD r [] := by
    intro r hr hc
    rw [hstep r hr, hc]
    apply adamStepVec_zero_grad
    · simp only [scaleVec, List.length_map, hglen]
      exact le_of_eq (hrows _ (getD_mem_of_lt G r (by omega)))
    · intro g hg
      rcases List.mem_map.mp hg with ⟨q, -, rfl⟩
      simp
  have hcount1 : ((List.count 1 [1] : ℕ) : ℚ) = 1 := by norm_num
  refine ⟨hzero 0 (by omega) (by decide), hzero 2 (by omega) (by decide), ?_⟩
  rw [hstep 1 (by omega), hcount1, scaleVec_one,
    Ne, adamStepVec_eq_self_iff lr s eps hlr hs heps _ _
      (by rw [hglen, hrows _ (getD_mem_of_lt G 1 (by omega))])]
  push_neg
  rfl

/-- Concrete scenario-B parameters for the C8 witness (`n_inputs = 4`,
`n_hidden = 2`, `n_outputs = 4`, `n_groups = 3`, venue absent, all hidden
units active). -/
def W8 : Mat := [[1, 0], [0, 1], [0, 0], [0, 0]]

def b8 : Vec := [1, 1]

def G8 : Mat := [[0, 0], [1/10, 1/10], [0, 0]]

def V8 : Mat := [[1, 1, 1, 1], [1, 1, 1, 1]]

def c8v : Vec := [0, 0, 0, 0]

def x8 : Mat := [[1, 0, 0, 0], [1, 0, 0, 0]]

def y8 : Vec := [1, 0]

def gidx8 : List (ℕ × ℕ) := [(0, 0), (1, 2)]

/-- Witness for C8: at the concrete scenario-B instance the hypotheses hold,
the gradient reaching the group factor is `[27/5, 27/5] ≠ 0`, and therefore —
by the amended theorem — rows 0 and 2 survive the step unchanged while row 1
moves. -/
theorem group_embedding_row_update_witness :
    ((0 : ℚ) < 1/1000 ∧ (0 : ℚ) < 1/40 ∧ (0 : ℚ) < 1/100000000 ∧
      G8.length = 3 ∧ (∀ r ∈ G8, r.length = b8.length) ∧
      V8.length = b8.length ∧ x8 ≠ []) ∧
    ((trainStepGroupTable (1/1000) (1/40) (1/100000000) relu reluGrad relu
        reluGrad W8 b8 G8 V8 c8v x8 [1] gidx8 y8).getD 0 [] = G8.getD 0 [] ∧
      (trainStepGroupTable (1/1000) (1/40) (1/100000000) relu reluGrad relu
        reluGrad W8 b8 G8 V8 c8v x8 [1] gidx8 y8).getD 2 [] = G8.getD 2 []) ∧
    (trainStepGroupTable (1/1000) (1/40) (1/100000000) relu reluGrad relu
        reluGrad W8 b8 G8 V8 c8v x8 [1] gidx8 y8).getD 1 [] ≠ G8.getD 1 [] := by
  have hgrad : gradGroupVec relu reluGrad relu reluGrad W8 b8 G8 V8 c8v x8 [1]
      gidx8 y8 = [27/5, 27/5] := by
    norm_num [gradGroupVec, preActivation, groupModel, broadcastAdd, xwPlusB,
      embeddingLookup, reduceSum0, addVec, mapMat, relu, reluGrad, hadamard,
      scatterAdd, updAdd, zeroLike, gatherNd, dot, col, W8, b8, G8, V8, c8v,
      x8, y8, gidx8, List.range_succ, List.replicate, List.set]
  have hrows : ∀ r ∈ G8, r.length = b8.length := by
    intro r hr
    simp only [G8, List.mem_cons, List.not_mem_nil, or_false] at hr
    rcases hr with rfl | rfl | rfl <;> simp [b8]
  have h := group_embedding_row_update (1/1000) (1/40) (1/100000000) relu
    reluGrad relu reluGrad W8 b8 G8 V8 c8v x8 gidx8 y8
    (by norm_num) (by norm_num) (by norm_num) rfl hrows rfl (by simp [x8])
  refine ⟨⟨by norm_num, by norm_num, by norm_num, rfl, hrows,
      rfl, by simp [x8]⟩,
    ⟨h.1, h.2.1⟩, ?_⟩
  exact h.2.2.mpr ⟨27/5, by rw [hgrad]; exact List.mem_cons_self _ _, by norm_num⟩

/-- C8 (counterexample): the claim "one training step with `group_id = [1]`
changes group embedding row 1" fails for parameter states where every hidden
relu unit is dead: with `W = 0`, `b = [-1, -1]` the preactivations are
negative, the relu gradient vanishes, the gradient reaching `GroupBias` is
zero, and the whole table — row 1 included — is exactly unchanged by the
step. -/
theorem group_row_unchanged_counterexample :
    trainStepGroupTable (1/1000) (1/40) (1/100000000) relu reluGrad relu
        reluGrad [[0, 0], [0, 0], [0, 0], [0, 0]] [-1, -1]
        [[1/100, 1/100], [1/100, 1/100], [1/100, 1/100]]
        [[1, 1, 1, 1], [1, 1, 1, 1]] [0, 0, 0, 0] [[1, 0, 0, 0], [0, 1, 0, 0]]
        [1] [(0, 0), (1, 2)] [1, 0]
      = [[1/100, 1/100], [1/100, 1/100], [1/100, 1/100]] := by
  norm_num [trainStepGroupTable, gradGroupTable, gradGroupVec, preActivation,
    groupModel, broadcastAdd, xwPlusB, embeddingLookup, reduceSum0, addVec,
    mapMat, relu, reluGrad, hadamard, scatterAdd, updAdd, zeroLike, gatherNd,
    dot, col, scaleVec, adamStepVec, adamStep1, adamDelta, List.range_succ,
    List.count_cons, List.count_nil]

end ACDA

